import Mathlib

/-!
Verification of the planning-and-decision-support repository: a TOPSIS
ranking engine (src/topsis/simple-example.py, function topsis_rank_states)
and a greedy multi-period budget-splitting scheduler
(src/schedule/example.py, function schedule_allow_split).

The embedding works over an arbitrary linear ordered field in place of
Python floats (exact arithmetic), and the square root used by the ranking
engine is an explicit function parameter, since float sqrt has no exact
computable counterpart; theorems that depend on properties of sqrt state
them as hypotheses, all satisfied by the real square root.

Python dicts are embedded as insertion-ordered association lists with
first-match lookup and in-place overwrite, matching dict semantics when
keys are distinct (which Python guarantees).
-/

set_option linter.unusedVariables false
set_option linter.unusedSectionVars false

/-- First-match lookup in an association list: Python dict read access. -/
def dictGet {β : Type} (k : String) : List (String × β) → Option β
  | [] => none
  | (k', v) :: l => if k' = k then some v else dictGet k l

/-- Python dict write access: overwrite the first entry with the given key in
place, or append a fresh entry at the end when the key is absent. -/
def dictSet {β : Type} (k : String) (v : β) : List (String × β) → List (String × β)
  | [] => [(k, v)]
  | (k', v') :: l => if k' = k then (k, v) :: l else (k', v') :: dictSet k v l

section Scheduler

variable {α : Type} [LinearOrderedField α]

/-- A state record as consumed by the scheduler (src/schedule/example.py):
only the name, cost-per-habitant and population fields are read. -/
structure SState (α : Type) where
  name : String
  cost_per_habitant : α
  population : α

/-- Total cost = cost per habitant * population (compute_state_cost). -/
def compute_state_cost (s : SState α) : α :=
  s.cost_per_habitant * s.population

/-- One allocation record appended under a quarter: {'name': ..., 'allocated': ...}. -/
structure Alloc (α : Type) where
  name : String
  allocated : α

/-- One per-state coverage record. -/
structure Cov (α : Type) where
  name : String
  total_cost : α
  allocated : α
  coverage_pct : α
  fully_funded : Bool
deriving DecidableEq

/-- The state threaded by the inner quarter loop of schedule_allow_split. -/
structure QLoop (α : Type) where
  need : α
  allocTot : α
  remaining : List (String × α)
  sched : List (String × List (Alloc α))

/-- The inner loop of schedule_allow_split (lines 40-51): iterate the quarters
in order; break when need <= 0; skip exhausted quarters; otherwise allot
min(need, remaining[q]), decrement the quarter and need, and append the
allocation record, guarded by allot > 0 exactly as in the source. -/
def allocQuarters (name : String) (need allocTot : α) (rem : List (String × α))
    (sched : List (String × List (Alloc α))) : List String → QLoop α
  | [] => ⟨need, allocTot, rem, sched⟩
  | q :: qs =>
    if need ≤ 0 then ⟨need, allocTot, rem, sched⟩
    else if (dictGet q rem).getD 0 ≤ 0 then allocQuarters name need allocTot rem sched qs
    else if 0 < min need ((dictGet q rem).getD 0) then
      allocQuarters name (need - min need ((dictGet q rem).getD 0))
        (allocTot + min need ((dictGet q rem).getD 0))
        (dictSet q ((dictGet q rem).getD 0 - min need ((dictGet q rem).getD 0)) rem)
        (dictSet q ((dictGet q sched).getD [] ++ [⟨name, min need ((dictGet q rem).getD 0)⟩]) sched)
        qs
    else allocQuarters name need allocTot rem sched qs

/-- The mutable state of the allocation pass: remaining budgets, the
per-quarter schedule lists and the coverage list. -/
structure PassSt (α : Type) where
  remaining : List (String × α)
  sched : List (String × List (Alloc α))
  coverage : List (Cov α)

/-- Processing of one state by schedule_allow_split (lines 34-59): run the
quarter loop and append the coverage record, with coverage_pct falling back
to 0 when total_cost is not positive. -/
def processState (st : PassSt α) (s : SState α) : PassSt α :=
  let total_cost := compute_state_cost s
  let r := allocQuarters s.name total_cost 0 st.remaining st.sched (st.remaining.map Prod.fst)
  { remaining := r.remaining,
    sched := r.sched,
    coverage := st.coverage ++
      [⟨s.name, total_cost, r.allocTot,
        if 0 < total_cost then r.allocTot / total_cost else 0,
        decide (total_cost ≤ r.allocTot)⟩] }

/-- The whole allocation pass of schedule_allow_split: remaining starts as a
copy of the budgets, the schedule starts with an empty list per budget key,
and the states are folded in input order. -/
def runPass (states : List (SState α)) (budgets : List (String × α)) : PassSt α :=
  states.foldl processState
    ⟨budgets, budgets.map (fun p => (p.1, ([] : List (Alloc α)))), []⟩

/-- A value of the single flat dictionary schedule_allow_split returns: a
per-quarter allocation list, the remaining-budget map, or the coverage list. -/
inductive SchedVal (α : Type) where
  | allocs (l : List (Alloc α))
  | budgets (rem : List (String × α))
  | cover (c : List (Cov α))

/-- schedule_allow_split (src/schedule/example.py lines 30-63): run the pass,
then store the remaining-budget map under key "remaining_budgets" and the
coverage list under key "coverage" in the same flat dictionary that already
holds the per-quarter allocation lists. -/
def schedule_allow_split (states : List (SState α)) (budgets : List (String × α)) :
    List (String × SchedVal α) :=
  let st := runPass states budgets
  dictSet "coverage" (SchedVal.cover st.coverage)
    (dictSet "remaining_budgets" (SchedVal.budgets st.remaining)
      (st.sched.map (fun p => (p.1, SchedVal.allocs p.2))))

/-- The remaining budget recorded for a key (0 when absent). -/
def remAt (q : String) (rem : List (String × α)) : α :=
  ((dictGet q rem).getD 0)

/-- The sum of the allocation amounts recorded under a key of a schedule. -/
def schedSum (q : String) (sched : List (String × List (Alloc α))) : α :=
  (((dictGet q sched).getD []).map Alloc.allocated).sum

/-- Reading the per-quarter allocation sum out of the returned dictionary. -/
def allocSumIn (res : List (String × SchedVal α)) (q : String) : α :=
  match dictGet q res with
  | some (SchedVal.allocs l) => (l.map Alloc.allocated).sum
  | _ => 0

/-- Reading a quarter's remaining budget out of the returned dictionary. -/
def remainingIn (res : List (String × SchedVal α)) (q : String) : α :=
  match dictGet "remaining_budgets" res with
  | some (SchedVal.budgets rm) => (dictGet q rm).getD 0
  | _ => 0

/-- Reading the coverage list out of the returned dictionary. -/
def coverIn (res : List (String × SchedVal α)) : List (Cov α) :=
  match dictGet "coverage" res with
  | some (SchedVal.cover c) => c
  | _ => []

end Scheduler

section Topsis

variable {α : Type} [LinearOrderedField α]

/-- A Python error: ValueError (raised by the explicit validation checks and
by max()/min() on an empty sequence) or KeyError (a missing dict key). -/
inductive PyErr where
  | valueError (msg : String)
  | keyError (key : String)
deriving DecidableEq

/-- A state record as consumed by the ranking engine: the name entry of the
Python dict is kept apart from the numeric criterion entries. -/
structure PyState (α : Type) where
  name : String
  attrs : List (String × α)

/-- The default weights of topsis_rank_states (line 44). -/
def defaultWeights : List (String × α) :=
  [("score", 0.6), ("cost_per_habitant", 0.3), ("population", 0.1)]

/-- The default benefit/cost flags of topsis_rank_states (line 46). -/
def defaultFlags : List (String × Bool) :=
  [("score", true), ("cost_per_habitant", false), ("population", true)]

/-- The default criteria_order tuple of topsis_rank_states (line 9). -/
def stdOrder : List String := ["score", "cost_per_habitant", "population"]

/-- Validation loop over criteria_order (lines 49-53): each criterion needs a
weight entry and then a benefit/cost flag entry. -/
def checkCriteria (weights : List (String × α)) (flags : List (String × Bool)) :
    List String → Except PyErr Unit
  | [] => .ok ()
  | c :: cs =>
    if (dictGet c weights).isNone then
      .error (.valueError ("Missing weight for criterion " ++ c ++ "."))
    else if (dictGet c flags).isNone then
      .error (.valueError ("Missing benefit/cost flag for criterion " ++ c ++ "."))
    else checkCriteria weights flags cs

/-- Validation loop over the states (lines 54-57): every state needs a value
for every criterion in the evaluation order. -/
def checkStates (order : List String) : List (PyState α) → Except PyErr Unit
  | [] => .ok ()
  | s :: ss =>
    if (order.all (fun c => (dictGet c s.attrs).isSome)) then checkStates order ss
    else .error (.valueError ("State " ++ s.name ++ " missing criterion."))

/-- float(s[c]) for a validated state: the value of a criterion entry. -/
def sval (s : PyState α) (c : String) : α := (dictGet c s.attrs).getD 0

/-- The decision matrix X (line 61): one row per state, in criteria order. -/
def buildX (states : List (PyState α)) (order : List String) : List (List α) :=
  states.map (fun s => order.map (sval s))

/-- The sum of squares down column j of the matrix (inside line 68). -/
def colSumSq (xss : List (List α)) (j : ℕ) : α :=
  (xss.map (fun row => (row.getD j 0) ^ 2)).sum

/-- col_norms (lines 66-69): the Euclidean norm of each column, with 1
substituted for a norm that is exactly zero. -/
def colNorms (sqrt : α → α) (xss : List (List α)) (m : ℕ) : List α :=
  (List.range m).map (fun j =>
    if sqrt (colSumSq xss j) = 0 then 1 else sqrt (colSumSq xss j))

/-- R (line 71): the column-normalized matrix. -/
def normMatrix (sqrt : α → α) (xss : List (List α)) (m : ℕ) : List (List α) :=
  xss.map (fun row =>
    (List.range m).map (fun j => row.getD j 0 / (colNorms sqrt xss m).getD j 1))

/-- V (line 80): the weighted normalized matrix. -/
def weightMatrix (R : List (List α)) (wv : List α) (m : ℕ) : List (List α) :=
  R.map (fun row => (List.range m).map (fun j => row.getD j 0 * wv.getD j 0))

/-- max of a column: ValueError on an empty sequence, as in Python. -/
def colMaxE (col : List α) : Except PyErr α :=
  match col.max? with
  | some v => .ok v
  | none => .error (.valueError "max() arg is an empty sequence")

/-- min of a column: ValueError on an empty sequence, as in Python. -/
def colMinE (col : List α) : Except PyErr α :=
  match col.min? with
  | some v => .ok v
  | none => .error (.valueError "min() arg is an empty sequence")

/-- The loop of lines 83-92 building A_plus and A_minus: for each column,
best/worst is max/min for a benefit criterion and min/max for a cost one. -/
def idealsLoop (flags : List (String × Bool)) (order : List String)
    (V : List (List α)) : List ℕ → Except PyErr (List α × List α)
  | [] => .ok ([], [])
  | j :: js =>
    match colMaxE (V.map (fun row => row.getD j 0)) with
    | .error e => .error e
    | .ok mx =>
      match colMinE (V.map (fun row => row.getD j 0)) with
      | .error e => .error e
      | .ok mn =>
        match idealsLoop flags order V js with
        | .error e => .error e
        | .ok (ap, am) =>
          if (dictGet (order.getD j "") flags).getD false then .ok (mx :: ap, mn :: am)
          else .ok (mn :: ap, mx :: am)

/-- A_plus and A_minus over all m columns. -/
def idealsE (flags : List (String × Bool)) (order : List String)
    (V : List (List α)) (m : ℕ) : Except PyErr (List α × List α) :=
  idealsLoop flags order V (List.range m)

/-- euclidean_dist (lines 95-96) over the first m coordinates. -/
def euclidean_dist (sqrt : α → α) (vec ref : List α) (m : ℕ) : α :=
  sqrt (((List.range m).map (fun j => (vec.getD j 0 - ref.getD j 0) ^ 2)).sum)

/-- S_plus / S_minus (lines 98-99): distances of each weighted row to a
reference point. -/
def distList (sqrt : α → α) (V : List (List α)) (A : List α) (n m : ℕ) : List α :=
  (List.range n).map (fun i => euclidean_dist sqrt (V.getD i []) A m)

/-- The closeness coefficient of one entity (lines 104-105): the distance to
the worst divided by the sum of the two distances, and 0 when that sum is
zero. -/
def closenessOf (sp sm : α) : α :=
  if sp + sm = 0 then 0 else sm / (sp + sm)

/-- The closeness list (lines 102-106). -/
def closenessList (sqrt : α → α) (V : List (List α)) (Ap Am : List α) (n m : ℕ) : List α :=
  (List.range n).map (fun i =>
    closenessOf ((distList sqrt V Ap n m).getD i 0) ((distList sqrt V Am n m).getD i 0))

/-- One pre-rank result entry (lines 111-117): name, closeness and the three
hard-coded original fields. -/
structure RankEntry (α : Type) where
  name : String
  closeness : α
  score : α
  cost_per_habitant : α
  population : α

/-- The loop of lines 110-118: build one entry per state; the three original
fields are read by plain dict indexing, so a missing one is a KeyError. -/
def buildEntriesLoop : List (PyState α × α) → Except PyErr (List (RankEntry α))
  | [] => .ok []
  | (s, c) :: rest =>
    match dictGet "score" s.attrs with
    | none => .error (.keyError "score")
    | some sc =>
      match dictGet "cost_per_habitant" s.attrs with
      | none => .error (.keyError "cost_per_habitant")
      | some cp =>
        match dictGet "population" s.attrs with
        | none => .error (.keyError "population")
        | some pp =>
          match buildEntriesLoop rest with
          | .error e => .error e
          | .ok es => .ok (⟨s.name, c, sc, cp, pp⟩ :: es)

/-- The result list before sorting. -/
def buildEntriesE (states : List (PyState α)) (cls : List α) :
    Except PyErr (List (RankEntry α)) :=
  buildEntriesLoop (states.zip cls)

/-- Insertion of an entry into a list already sorted by descending closeness:
it goes in front of the first element whose closeness is not larger. -/
def insertDesc (a : RankEntry α) : List (RankEntry α) → List (RankEntry α)
  | [] => [a]
  | b :: l => if b.closeness ≤ a.closeness then a :: b :: l else b :: insertDesc a l

/-- sorted(result, key=closeness, reverse=True) (line 121): the stable
descending sort by closeness. Stable sorts agree on their output, so this
insertion sort computes exactly the list Python's stable sort produces. -/
def sortDesc : List (RankEntry α) → List (RankEntry α)
  | [] => []
  | a :: l => insertDesc a (sortDesc l)

/-- A result entry after the rank has been attached (lines 122-123). -/
structure RankedEntry (α : Type) where
  name : String
  closeness : α
  score : α
  cost_per_habitant : α
  population : α
  rank : ℕ

/-- Lines 120-123: sort by descending closeness and attach rank idx, counting
from 1, in sorted order. -/
def rankResults (l : List (RankEntry α)) : List (RankedEntry α) :=
  (sortDesc l).mapIdx (fun i e =>
    ⟨e.name, e.closeness, e.score, e.cost_per_habitant, e.population, i + 1⟩)

/-- The body of topsis_rank_states after default substitution (lines 48-123):
validation, the numeric pipeline, result building and the sort; the function
then falls off the end, so a successful call yields Python's None, embedded
as Except.ok (). -/
def topsisCore (sqrt : α → α) (states : List (PyState α))
    (weights : List (String × α)) (flags : List (String × Bool))
    (order : List String) : Except PyErr Unit :=
  match checkCriteria weights flags order with
  | .error e => .error e
  | .ok _ =>
    match checkStates order states with
    | .error e => .error e
    | .ok _ =>
      let X := buildX states order
      let n := states.length
      let m := order.length
      let R := normMatrix sqrt X m
      let wv := order.map (fun c => (dictGet c weights).getD 0)
      if wv.sum ≤ 0 then .error (.valueError "Sum of weights must be > 0.")
      else
        let wvn := wv.map (· / wv.sum)
        let V := weightMatrix R wvn m
        match idealsE flags order V m with
        | .error e => .error e
        | .ok (Ap, Am) =>
          let cls := closenessList sqrt V Ap Am n m
          match buildEntriesE states cls with
          | .error e => .error e
          | .ok result =>
            let _result_sorted := rankResults result
            .ok ()

/-- topsis_rank_states (src/topsis/simple-example.py lines 5-123): substitute
the default weights and flags when the optional arguments are absent
(lines 42-46), then run the body. No code path returns the ranked list. -/
def topsis_rank_states (sqrt : α → α) (states : List (PyState α))
    (weightsOpt : Option (List (String × α))) (flagsOpt : Option (List (String × Bool)))
    (order : List String) : Except PyErr Unit :=
  topsisCore sqrt states (weightsOpt.getD defaultWeights) (flagsOpt.getD defaultFlags) order

end Topsis

/-- A stand-in square root on the rationals, used only to instantiate
witnesses: it satisfies the sqrt hypotheses the theorems assume. -/
def idSqrt : ℚ → ℚ := fun x => x

/-- The five example states of the repository's __main__ blocks. -/
def exampleStates : List (PyState ℚ) :=
  [⟨"State A", [("score", 78), ("cost_per_habitant", 1100), ("population", 2500000)]⟩,
   ⟨"State B", [("score", 85), ("cost_per_habitant", 1500), ("population", 4000000)]⟩,
   ⟨"State C", [("score", 72), ("cost_per_habitant", 900), ("population", 1200000)]⟩,
   ⟨"State D", [("score", 90), ("cost_per_habitant", 1700), ("population", 3300000)]⟩,
   ⟨"State E", [("score", 80), ("cost_per_habitant", 1000), ("population", 2000000)]⟩]


/-! ## Association-list (dict) lemmas -/

theorem dictGet_cons {β : Type} (k k' : String) (v : β) (l : List (String × β)) :
    dictGet k ((k', v) :: l) = if k' = k then some v else dictGet k l := rfl

theorem dictSet_cons {β : Type} (k k' : String) (v v' : β) (l : List (String × β)) :
    dictSet k v ((k', v') :: l) = if k' = k then (k, v) :: l else (k', v') :: dictSet k v l := rfl

theorem dictGet_dictSet_self {β : Type} (k : String) (v : β) (l : List (String × β)) :
    dictGet k (dictSet k v l) = some v := by
  induction l with
  | nil => simp [dictGet, dictSet]
  | cons p l ih =>
    rcases p with ⟨k', v'⟩
    rw [dictSet_cons]
    by_cases h : k' = k
    · rw [if_pos h, dictGet_cons, if_pos rfl]
    · rw [if_neg h, dictGet_cons, if_neg h, ih]

theorem dictGet_dictSet_ne {β : Type} {k' k : String} (h : k' ≠ k) (v : β)
    (l : List (String × β)) : dictGet k' (dictSet k v l) = dictGet k' l := by
  induction l with
  | nil => simp [dictGet, dictSet, if_neg (Ne.symm h)]
  | cons p l ih =>
    rcases p with ⟨k0, v0⟩
    rw [dictSet_cons]
    by_cases h0 : k0 = k
    · rw [if_pos h0, dictGet_cons, if_neg (Ne.symm h), dictGet_cons, h0,
        if_neg (fun hh => h (Eq.symm hh))]
    · rw [if_neg h0, dictGet_cons, dictGet_cons]
      by_cases h0' : k0 = k'
      · rw [if_pos h0', if_pos h0']
      · rw [if_neg h0', if_neg h0', ih]

theorem dictGet_isSome_iff_mem {β : Type} (k : String) (l : List (String × β)) :
    (dictGet k l).isSome ↔ k ∈ l.map Prod.fst := by
  induction l with
  | nil => simp [dictGet]
  | cons p l ih =>
    rcases p with ⟨k', v⟩
    rw [dictGet_cons]
    by_cases h : k' = k
    · simp [if_pos h, h]
    · simp only [if_neg h, ih, List.map_cons, List.mem_cons]
      constructor
      · exact fun hh => Or.inr hh
      · rintro (hh | hh)
        · exact absurd hh.symm h
        · exact hh

theorem dictSet_map_fst_of_isSome {β : Type} {k : String} {l : List (String × β)}
    (h : (dictGet k l).isSome) (v : β) :
    (dictSet k v l).map Prod.fst = l.map Prod.fst := by
  induction l with
  | nil => simp [dictGet] at h
  | cons p l ih =>
    rcases p with ⟨k', v'⟩
    rw [dictSet_cons]
    by_cases hk : k' = k
    · rw [if_pos hk]
      simp [hk]
    · rw [dictGet_cons, if_neg hk] at h
      rw [if_neg hk]
      simp [ih h]

theorem mem_of_dictGet_eq_some {β : Type} {k : String} {v : β} {l : List (String × β)}
    (h : dictGet k l = some v) : (k, v) ∈ l := by
  induction l with
  | nil => simp [dictGet] at h
  | cons p l ih =>
    rcases p with ⟨k', v'⟩
    rw [dictGet_cons] at h
    by_cases hk : k' = k
    · rw [if_pos hk] at h
      subst hk
      rw [← Option.some_inj.mp h]
      exact List.mem_cons_self _ _
    · rw [if_neg hk] at h
      exact List.mem_cons_of_mem _ (ih h)

theorem dictGet_eq_some_of_mem {β : Type} {k : String} {v : β} {l : List (String × β)}
    (nd : (l.map Prod.fst).Nodup) (h : (k, v) ∈ l) : dictGet k l = some v := by
  induction l with
  | nil => simp at h
  | cons p l ih =>
    rcases p with ⟨k', v'⟩
    simp only [List.map_cons, List.nodup_cons] at nd
    rcases List.mem_cons.mp h with h1 | h1
    · rw [← h1, dictGet_cons, if_pos rfl]
    · rw [dictGet_cons]
      by_cases hk : k' = k
      · exact absurd (hk ▸ (List.mem_map_of_mem Prod.fst h1)) nd.1
      · rw [if_neg hk]
        exact ih nd.2 h1

theorem mem_dictSet_of_ne {β : Type} {k' k : String} {w v : β} {l : List (String × β)}
    (h : k' ≠ k) (hm : (k', w) ∈ dictSet k v l) : (k', w) ∈ l := by
  induction l with
  | nil =>
    simp [dictSet] at hm
    exact absurd hm.1 h
  | cons p l ih =>
    rcases p with ⟨k0, v0⟩
    rw [dictSet_cons] at hm
    by_cases h0 : k0 = k
    · rw [if_pos h0] at hm
      rcases List.mem_cons.mp hm with h1 | h1
      · exact absurd (congrArg Prod.fst h1) h
      · exact List.mem_cons_of_mem _ h1
    · rw [if_neg h0] at hm
      rcases List.mem_cons.mp hm with h1 | h1
      · exact h1 ▸ List.mem_cons_self _ _
      · exact List.mem_cons_of_mem _ (ih h1)

theorem eq_of_mem_dictSet_self {β : Type} {k : String} {w v : β} {l : List (String × β)}
    (nd : (l.map Prod.fst).Nodup) (hm : (k, w) ∈ dictSet k v l) : w = v := by
  induction l with
  | nil =>
    simp [dictSet] at hm
    exact hm
  | cons p l ih =>
    rcases p with ⟨k0, v0⟩
    simp only [List.map_cons, List.nodup_cons] at nd
    rw [dictSet_cons] at hm
    by_cases h0 : k0 = k
    · rw [if_pos h0] at hm
      rcases List.mem_cons.mp hm with h1 | h1
      · exact congrArg Prod.snd h1
      · exact absurd (h0 ▸ (List.mem_map_of_mem Prod.fst h1)) nd.1
    · rw [if_neg h0] at hm
      rcases List.mem_cons.mp hm with h1 | h1
      · exact absurd (congrArg Prod.fst h1).symm h0
      · exact ih nd.2 h1

theorem dictSet_map_fst_of_not_mem {β : Type} {k : String} (v : β) {l : List (String × β)}
    (h : k ∉ l.map Prod.fst) :
    (dictSet k v l).map Prod.fst = l.map Prod.fst ++ [k] := by
  induction l with
  | nil => simp [dictSet]
  | cons p l ih =>
    rcases p with ⟨k0, v0⟩
    simp only [List.map_cons, List.mem_cons] at h
    push_neg at h
    rw [dictSet_cons, if_neg (fun hh => h.1 hh.symm)]
    simp [ih h.2]

theorem nodup_map_fst_dictSet {β : Type} (k : String) (v : β) {l : List (String × β)}
    (nd : (l.map Prod.fst).Nodup) : ((dictSet k v l).map Prod.fst).Nodup := by
  by_cases h : (dictGet k l).isSome
  · rw [dictSet_map_fst_of_isSome h]
    exact nd
  · have h' : k ∉ l.map Prod.fst := fun hm =>
      h ((dictGet_isSome_iff_mem k l).mpr hm)
    rw [dictSet_map_fst_of_not_mem v h']
    refine List.Nodup.append nd (List.nodup_singleton k) ?_
    intro a ha hb
    simp at hb
    subst hb
    exact h' ha

theorem dictGet_map_snd {β γ : Type} (k : String) (f : β → γ) (l : List (String × β)) :
    dictGet k (l.map (fun p => (p.1, f p.2))) = (dictGet k l).map f := by
  induction l with
  | nil => simp [dictGet]
  | cons p l ih =>
    rcases p with ⟨k', v⟩
    by_cases h : k' = k
    · simp [dictGet, h]
    · simp [dictGet, h, ih]

/-! ## Inner allocation loop invariants -/

section SchedulerLemmas

variable {α : Type} [LinearOrderedField α]

theorem isSome_of_getD_pos {rem : List (String × α)} {q : String}
    (h : ¬((dictGet q rem).getD 0 ≤ 0)) : (dictGet q rem).isSome := by
  cases hg : dictGet q rem with
  | none => rw [hg] at h; simp at h
  | some v => simp

/-- Per-quarter budget conservation through the inner loop: the recorded sum
plus the remaining value is unchanged, for every key. -/
theorem allocQuarters_conserve (name : String) (qs : List String) (q : String) :
    ∀ (need allocTot : α) (rem : List (String × α)) (sched : List (String × List (Alloc α))),
      schedSum q (allocQuarters name need allocTot rem sched qs).sched
        + remAt q (allocQuarters name need allocTot rem sched qs).remaining
      = schedSum q sched + remAt q rem := by
  induction qs with
  | nil =>
    intro need allocTot rem sched
    rfl
  | cons q0 qs ih =>
    intro need allocTot rem sched
    simp only [allocQuarters]
    split_ifs with h1 h2 h3
    · rfl
    · exact ih need allocTot rem sched
    · rw [ih]
      by_cases hq : q = q0
      · subst hq
        simp only [schedSum, remAt, dictGet_dictSet_self]
        simp only [Option.getD_some, List.map_append, List.sum_append, List.map_cons,
          List.map_nil, List.sum_cons, List.sum_nil]
        ring
      · simp only [schedSum, remAt, dictGet_dictSet_ne hq]
    · exact ih need allocTot rem sched

/-- The inner loop leaves the key lists of both dictionaries unchanged when
they agree beforehand. -/
theorem allocQuarters_map_fst (name : String) (qs : List String) :
    ∀ (need allocTot : α) (rem : List (String × α)) (sched : List (String × List (Alloc α))),
      rem.map Prod.fst = sched.map Prod.fst →
      (allocQuarters name need allocTot rem sched qs).remaining.map Prod.fst = rem.map Prod.fst
      ∧ (allocQuarters name need allocTot rem sched qs).sched.map Prod.fst = sched.map Prod.fst := by
  induction qs with
  | nil =>
    intro need allocTot rem sched h
    exact ⟨rfl, rfl⟩
  | cons q0 qs ih =>
    intro need allocTot rem sched h
    simp only [allocQuarters]
    split_ifs with h1 h2 h3
    · exact ⟨rfl, rfl⟩
    · exact ih need allocTot rem sched h
    · have hrem : (dictGet q0 rem).isSome := isSome_of_getD_pos h2
      have hsched : (dictGet q0 sched).isSome := by
        rw [dictGet_isSome_iff_mem, ← h]
        rw [dictGet_isSome_iff_mem] at hrem
        exact hrem
      have e1 := dictSet_map_fst_of_isSome hrem
        ((dictGet q0 rem).getD 0 - min need ((dictGet q0 rem).getD 0))
      have e2 := dictSet_map_fst_of_isSome hsched
        ((dictGet q0 sched).getD [] ++ [⟨name, min need ((dictGet q0 rem).getD 0)⟩])
      have := ih (need - min need ((dictGet q0 rem).getD 0))
        (allocTot + min need ((dictGet q0 rem).getD 0))
        (dictSet q0 ((dictGet q0 rem).getD 0 - min need ((dictGet q0 rem).getD 0)) rem)
        (dictSet q0 ((dictGet q0 sched).getD [] ++ [⟨name, min need ((dictGet q0 rem).getD 0)⟩]) sched)
        (by rw [e1, e2, h])
      rw [e1, e2] at this
      exact this
    · exact ih need allocTot rem sched h

/-- The inner loop only moves budget into allocations: need plus the running
total is invariant. -/
theorem allocQuarters_need_sum (name : String) (qs : List String) :
    ∀ (need allocTot : α) (rem : List (String × α)) (sched : List (String × List (Alloc α))),
      (allocQuarters name need allocTot rem sched qs).need
        + (allocQuarters name need allocTot rem sched qs).allocTot
      = need + allocTot := by
  induction qs with
  | nil =>
    intro need allocTot rem sched
    rfl
  | cons q0 qs ih =>
    intro need allocTot rem sched
    simp only [allocQuarters]
    split_ifs with h1 h2 h3
    · rfl
    · exact ih need allocTot rem sched
    · rw [ih]
      ring
    · exact ih need allocTot rem sched

/-- A non-negative need stays non-negative through the inner loop. -/
theorem allocQuarters_need_nonneg (name : String) (qs : List String) :
    ∀ (need allocTot : α) (rem : List (String × α)) (sched : List (String × List (Alloc α))),
      0 ≤ need → 0 ≤ (allocQuarters name need allocTot rem sched qs).need := by
  induction qs with
  | nil =>
    intro need allocTot rem sched h
    exact h
  | cons q0 qs ih =>
    intro need allocTot rem sched h
    simp only [allocQuarters]
    split_ifs with h1 h2 h3
    · exact h
    · exact ih need allocTot rem sched h
    · exact ih _ _ _ _ (by simp [min_le_left])
    · exact ih need allocTot rem sched h

/-- Every key's remaining value is non-increasing through the inner loop. -/
theorem allocQuarters_rem_le (name : String) (qs : List String) (q : String) :
    ∀ (need allocTot : α) (rem : List (String × α)) (sched : List (String × List (Alloc α))),
      remAt q (allocQuarters name need allocTot rem sched qs).remaining ≤ remAt q rem := by
  induction qs with
  | nil =>
    intro need allocTot rem sched
    exact le_refl _
  | cons q0 qs ih =>
    intro need allocTot rem sched
    simp only [allocQuarters]
    split_ifs with h1 h2 h3
    · exact le_refl _
    · exact ih need allocTot rem sched
    · refine le_trans (ih _ _ _ _) ?_
      by_cases hq : q = q0
      · subst hq
        simp only [remAt, dictGet_dictSet_self, Option.getD_some]
        have : 0 ≤ min need ((dictGet q rem).getD 0) := le_of_lt h3
        linarith
      · simp only [remAt, dictGet_dictSet_ne hq]
        exact le_refl _
    · exact ih need allocTot rem sched

/-- A non-negative remaining value stays non-negative through the inner loop. -/
theorem allocQuarters_rem_nonneg (name : String) (qs : List String) (q : String) :
    ∀ (need allocTot : α) (rem : List (String × α)) (sched : List (String × List (Alloc α))),
      0 ≤ remAt q rem → 0 ≤ remAt q (allocQuarters name need allocTot rem sched qs).remaining := by
  induction qs with
  | nil =>
    intro need allocTot rem sched h
    exact h
  | cons q0 qs ih =>
    intro need allocTot rem sched h
    simp only [allocQuarters]
    split_ifs with h1 h2 h3
    · exact h
    · exact ih need allocTot rem sched h
    · refine ih _ _ _ _ ?_
      by_cases hq : q = q0
      · subst hq
        simp only [remAt, dictGet_dictSet_self, Option.getD_some]
        have : min need ((dictGet q rem).getD 0) ≤ (dictGet q rem).getD 0 := min_le_right _ _
        linarith
      · simp only [remAt, dictGet_dictSet_ne hq]
        exact h
    · exact ih need allocTot rem sched h

/-- Once a key's remaining value is zero, the inner loop neither changes it
nor appends anything under that key. -/
theorem allocQuarters_zero_frozen (name : String) (qs : List String) (q : String) :
    ∀ (need allocTot : α) (rem : List (String × α)) (sched : List (String × List (Alloc α))),
      remAt q rem = 0 →
      remAt q (allocQuarters name need allocTot rem sched qs).remaining = 0
      ∧ dictGet q (allocQuarters name need allocTot rem sched qs).sched = dictGet q sched := by
  induction qs with
  | nil =>
    intro need allocTot rem sched h
    exact ⟨h, rfl⟩
  | cons q0 qs ih =>
    intro need allocTot rem sched h
    simp only [allocQuarters]
    split_ifs with h1 h2 h3
    · exact ⟨h, rfl⟩
    · exact ih need allocTot rem sched h
    · have hq : q ≠ q0 := by
        intro he
        subst he
        rw [remAt] at h
        rw [h] at h2
        exact h2 (le_refl 0)
      have hrem : remAt q (dictSet q0 ((dictGet q0 rem).getD 0
          - min need ((dictGet q0 rem).getD 0)) rem) = 0 := by
        rw [remAt, dictGet_dictSet_ne hq]
        exact h
      rcases ih _ _ _ _ hrem with ⟨ha, hb⟩
      refine ⟨ha, ?_⟩
      rw [hb, dictGet_dictSet_ne hq]
    · exact ih need allocTot rem sched h

/-- Every allocation record the inner loop appends carries a positive amount. -/
theorem allocQuarters_allocs_pos (name : String) (qs : List String) (q : String) :
    ∀ (need allocTot : α) (rem : List (String × α)) (sched : List (String × List (Alloc α))),
      (∀ l, dictGet q sched = some l → ∀ a ∈ l, 0 < a.allocated) →
      (∀ l, dictGet q (allocQuarters name need allocTot rem sched qs).sched = some l →
        ∀ a ∈ l, 0 < a.allocated) := by
  induction qs with
  | nil =>
    intro need allocTot rem sched h
    exact h
  | cons q0 qs ih =>
    intro need allocTot rem sched h
    simp only [allocQuarters]
    split_ifs with h1 h2 h3
    · exact h
    · exact ih need allocTot rem sched h
    · refine ih _ _ _ _ ?_
      intro l hl a ha
      by_cases hq : q = q0
      · subst hq
        rw [dictGet_dictSet_self] at hl
        rcases List.mem_append.mp (Option.some_inj.mp hl ▸ ha) with h4 | h4
        · cases hg : dictGet q sched with
          | none => rw [hg] at h4; simp at h4
          | some o =>
            rw [hg] at h4
            exact h o hg a h4
        · simp at h4
          rw [h4]
          exact h3
      · rw [dictGet_dictSet_ne hq] at hl
        exact h l hl a ha
    · exact ih need allocTot rem sched h

end SchedulerLemmas

/-! ## Allocation pass (outer loop) invariants -/

section PassLemmas

variable {α : Type} [LinearOrderedField α]

theorem processState_remaining (st : PassSt α) (s : SState α) :
    (processState st s).remaining
    = (allocQuarters s.name (compute_state_cost s) 0 st.remaining st.sched
        (st.remaining.map Prod.fst)).remaining := rfl

theorem processState_sched (st : PassSt α) (s : SState α) :
    (processState st s).sched
    = (allocQuarters s.name (compute_state_cost s) 0 st.remaining st.sched
        (st.remaining.map Prod.fst)).sched := rfl

theorem foldl_keys (states : List (SState α)) :
    ∀ st : PassSt α, st.remaining.map Prod.fst = st.sched.map Prod.fst →
      (states.foldl processState st).remaining.map Prod.fst = st.remaining.map Prod.fst
      ∧ (states.foldl processState st).sched.map Prod.fst = st.sched.map Prod.fst := by
  induction states with
  | nil =>
    intro st h
    exact ⟨rfl, rfl⟩
  | cons s ss ih =>
    intro st h
    rcases allocQuarters_map_fst s.name (st.remaining.map Prod.fst)
      (compute_state_cost s) 0 st.remaining st.sched h with ⟨h1, h2⟩
    have hkeys : (processState st s).remaining.map Prod.fst
        = (processState st s).sched.map Prod.fst := by
      rw [processState_remaining, processState_sched, h1, h2, h]
    rcases ih (processState st s) hkeys with ⟨h3, h4⟩
    rw [List.foldl_cons]
    refine ⟨?_, ?_⟩
    · rw [h3, processState_remaining, h1]
    · rw [h4, processState_sched, h2]

theorem runPass_keys (states : List (SState α)) (budgets : List (String × α)) :
    (runPass states budgets).remaining.map Prod.fst = budgets.map Prod.fst
    ∧ (runPass states budgets).sched.map Prod.fst = budgets.map Prod.fst := by
  have hinit : (budgets.map (fun p => (p.1, ([] : List (Alloc α))))).map Prod.fst
      = budgets.map Prod.fst := by
    rw [List.map_map]
    rfl
  rcases foldl_keys states ⟨budgets, budgets.map (fun p => (p.1, ([] : List (Alloc α)))), []⟩
    (by rw [hinit]) with ⟨h1, h2⟩
  exact ⟨h1, by rw [runPass, h2, hinit]⟩

theorem foldl_conserve (states : List (SState α)) (q : String) :
    ∀ st : PassSt α,
      schedSum q (states.foldl processState st).sched
        + remAt q (states.foldl processState st).remaining
      = schedSum q st.sched + remAt q st.remaining := by
  induction states with
  | nil =>
    intro st
    rfl
  | cons s ss ih =>
    intro st
    rw [List.foldl_cons, ih (processState st s), processState_remaining, processState_sched,
      allocQuarters_conserve]

theorem schedSum_init (q : String) (budgets : List (String × α)) :
    schedSum q (budgets.map (fun p => (p.1, ([] : List (Alloc α))))) = 0 := by
  rw [schedSum, dictGet_map_snd q (fun _ => ([] : List (Alloc α)))]
  cases dictGet q budgets with
  | none => rfl
  | some v => rfl

theorem foldl_rem_le (q : String) (ss : List (SState α)) :
    ∀ st : PassSt α,
      remAt q (ss.foldl processState st).remaining ≤ remAt q st.remaining := by
  induction ss with
  | nil =>
    intro st
    exact le_refl _
  | cons s ss ih =>
    intro st
    refine le_trans (ih (processState st s)) ?_
    rw [processState_remaining]
    exact allocQuarters_rem_le _ _ _ _ _ _ _

theorem foldl_rem_nonneg (q : String) (ss : List (SState α)) :
    ∀ st : PassSt α, 0 ≤ remAt q st.remaining →
      0 ≤ remAt q (ss.foldl processState st).remaining := by
  induction ss with
  | nil =>
    intro st h
    exact h
  | cons s ss ih =>
    intro st h
    refine ih (processState st s) ?_
    rw [processState_remaining]
    exact allocQuarters_rem_nonneg _ _ _ _ _ _ _ h

theorem foldl_zero_frozen (q : String) (ss : List (SState α)) :
    ∀ st : PassSt α, remAt q st.remaining = 0 →
      remAt q (ss.foldl processState st).remaining = 0
      ∧ dictGet q (ss.foldl processState st).sched = dictGet q st.sched := by
  induction ss with
  | nil =>
    intro st h
    exact ⟨h, rfl⟩
  | cons s ss ih =>
    intro st h
    have hz := allocQuarters_zero_frozen s.name (st.remaining.map Prod.fst) q
      (compute_state_cost s) 0 st.remaining st.sched h
    rw [← processState_remaining, ← processState_sched] at hz
    rcases ih (processState st s) hz.1 with ⟨h1, h2⟩
    refine ⟨?_, ?_⟩
    · rw [List.foldl_cons]
      exact h1
    · rw [List.foldl_cons, h2, hz.2]

theorem foldl_allocs_pos (q : String) (ss : List (SState α)) :
    ∀ st : PassSt α,
      (∀ l, dictGet q st.sched = some l → ∀ a ∈ l, 0 < a.allocated) →
      ∀ l, dictGet q (ss.foldl processState st).sched = some l → ∀ a ∈ l, 0 < a.allocated := by
  induction ss with
  | nil =>
    intro st h
    exact h
  | cons s ss ih =>
    intro st h
    refine ih (processState st s) ?_
    rw [processState_sched]
    exact allocQuarters_allocs_pos _ _ _ _ _ _ _ h

theorem coverIn_schedule (states : List (SState α)) (budgets : List (String × α)) :
    coverIn (schedule_allow_split states budgets) = (runPass states budgets).coverage := by
  rw [coverIn, schedule_allow_split, dictGet_dictSet_self]

theorem foldl_cover_ok (states : List (SState α))
    (hcs : ∀ s ∈ states, 0 ≤ compute_state_cost s) :
    ∀ st : PassSt α,
      (∀ c ∈ st.coverage,
        c.allocated ≤ c.total_cost
        ∧ (c.fully_funded = true ↔ c.total_cost ≤ c.allocated)
        ∧ (0 < c.total_cost → c.coverage_pct = c.allocated / c.total_cost)
        ∧ (c.total_cost ≤ 0 → c.coverage_pct = 0)) →
      ∀ c ∈ (states.foldl processState st).coverage,
        c.allocated ≤ c.total_cost
        ∧ (c.fully_funded = true ↔ c.total_cost ≤ c.allocated)
        ∧ (0 < c.total_cost → c.coverage_pct = c.allocated / c.total_cost)
        ∧ (c.total_cost ≤ 0 → c.coverage_pct = 0) := by
  induction states with
  | nil =>
    intro st h
    exact h
  | cons s ss ih =>
    intro st h
    refine ih (fun s' hs' => hcs s' (List.mem_cons_of_mem _ hs')) (processState st s) ?_
    intro c hc
    rw [processState] at hc
    simp only [List.mem_append, List.mem_singleton] at hc
    rcases hc with hc | hc
    · exact h c hc
    · subst hc
      have htc : 0 ≤ compute_state_cost s := hcs s (List.mem_cons_self _ _)
      have hsum := allocQuarters_need_sum s.name (st.remaining.map Prod.fst)
        (compute_state_cost s) 0 st.remaining st.sched
      have hnn := allocQuarters_need_nonneg s.name (st.remaining.map Prod.fst)
        (compute_state_cost s) 0 st.remaining st.sched htc
      refine ⟨by simp only []; linarith, ?_, ?_, ?_⟩
      · simp only [decide_eq_true_eq]
      · intro hpos
        simp only [] at hpos ⊢
        rw [if_pos hpos]
      · intro hle
        simp only [] at hle ⊢
        rw [if_neg (not_lt.mpr hle)]

end PassLemmas

/-! ## Scheduler claims -/

section SchedulerClaims

variable {α : Type} [LinearOrderedField α]

/-- C2 (amended): for every period in the budget mapping whose key is not
one of the two bookkeeping keys "remaining_budgets" and "coverage", after
schedule_allow_split completes, the sum of the allocation amounts recorded
under that period plus that period's remaining budget equals that period's
original budget (exact arithmetic). For a period named after a bookkeeping
key the equation fails on the returned dictionary, because that period's
allocation list is overwritten before the function returns (see the
counterexample below). -/
theorem budget_conservation_schedule_allow_split
    (states : List (SState α)) (budgets : List (String × α)) (q : String) (b : α)
    (hnd : (budgets.map Prod.fst).Nodup) (hmem : (q, b) ∈ budgets)
    (hq1 : q ≠ "remaining_budgets") (hq2 : q ≠ "coverage") :
    allocSumIn (schedule_allow_split states budgets) q
      + remainingIn (schedule_allow_split states budgets) q = b := by
  have hkeys := runPass_keys states budgets
  have hq : (dictGet q (runPass states budgets).sched).isSome := by
    rw [dictGet_isSome_iff_mem, hkeys.2]
    exact List.mem_map_of_mem Prod.fst hmem
  rcases Option.isSome_iff_exists.mp hq with ⟨l, hl⟩
  have hres1 : dictGet q (schedule_allow_split states budgets) = some (SchedVal.allocs l) := by
    simp only [schedule_allow_split]
    rw [dictGet_dictSet_ne hq2, dictGet_dictSet_ne hq1,
      dictGet_map_snd q (fun x => SchedVal.allocs x), hl]
    rfl
  have hres2 : dictGet "remaining_budgets" (schedule_allow_split states budgets)
      = some (SchedVal.budgets (runPass states budgets).remaining) := by
    simp only [schedule_allow_split]
    rw [dictGet_dictSet_ne (show ("remaining_budgets" : String) ≠ "coverage" by decide),
      dictGet_dictSet_self]
  have hcons : schedSum q (runPass states budgets).sched
      + remAt q (runPass states budgets).remaining
      = schedSum q (budgets.map (fun p => (p.1, ([] : List (Alloc α))))) + remAt q budgets :=
    foldl_conserve states q _
  rw [schedSum_init, zero_add] at hcons
  have hb : remAt q budgets = b := by
    rw [remAt, dictGet_eq_some_of_mem hnd hmem]
    rfl
  rw [hb] at hcons
  rw [allocSumIn, remainingIn, hres1, hres2]
  rw [schedSum, hl] at hcons
  simpa [remAt] using hcons

/-- Witness for C2 on a concrete instance: one state of cost 6 against
budgets q1 = 4, q2 = 10; under q1 the recorded sum plus the remaining budget
is the original 4. -/
theorem budget_conservation_witness :
    allocSumIn (schedule_allow_split [⟨"A", 2, 3⟩] [("q1", (4 : ℚ)), ("q2", 10)]) "q1"
      + remainingIn (schedule_allow_split [⟨"A", 2, 3⟩] [("q1", (4 : ℚ)), ("q2", 10)]) "q1"
      = 4 :=
  budget_conservation_schedule_allow_split [⟨"A", 2, 3⟩] [("q1", (4 : ℚ)), ("q2", 10)]
    "q1" 4 (by decide) (by decide) (by decide) (by decide)

/-- Counterexample to C2 as stated: a period literally named
"remaining_budgets" with original budget 4 and one state of cost 2. During
the pass 2 is allocated under that period and 2 remains, but the final
bookkeeping write replaces the period's allocation list in the returned
dictionary, so reading the returned dictionary the recorded allocation sum
plus the remaining budget is 0 + 2 = 2, not the original 4. -/
theorem budget_conservation_counterexample :
    (("remaining_budgets", (4 : ℚ)) ∈ [("remaining_budgets", (4 : ℚ))])
    ∧ allocSumIn (schedule_allow_split [⟨"A", 1, 2⟩]
        [("remaining_budgets", (4 : ℚ))]) "remaining_budgets"
      + remainingIn (schedule_allow_split [⟨"A", 1, 2⟩]
        [("remaining_budgets", (4 : ℚ))]) "remaining_budgets" ≠ 4 := by
  constructor
  · exact List.mem_singleton.mpr rfl
  · have h : schedule_allow_split [⟨"A", 1, 2⟩] [("remaining_budgets", (4 : ℚ))]
        = [("remaining_budgets", SchedVal.budgets [("remaining_budgets", 2)]),
           ("coverage", SchedVal.cover [⟨"A", 2, 2, 1, true⟩])] := by
      norm_num [schedule_allow_split, runPass, processState, allocQuarters,
        compute_state_cost, dictGet, dictSet, min_def]
      decide
    rw [h]
    norm_num [allocSumIn, remainingIn, dictGet]

/-- C3: for every entity, given non-negative costs and budgets, the coverage
record produced by schedule_allow_split has allocated_total at most
total_cost; fully_funded holds exactly when allocated_total reaches
total_cost; and the coverage fraction is allocated / total_cost for positive
total_cost and 0 otherwise. -/
theorem coverage_record_correct_schedule_allow_split
    (states : List (SState α)) (budgets : List (String × α))
    (hcs : ∀ s ∈ states, 0 ≤ s.cost_per_habitant ∧ 0 ≤ s.population)
    (hb : ∀ p ∈ budgets, 0 ≤ p.2) :
    ∀ c ∈ coverIn (schedule_allow_split states budgets),
      c.allocated ≤ c.total_cost
      ∧ (c.fully_funded = true ↔ c.total_cost ≤ c.allocated)
      ∧ (0 < c.total_cost → c.coverage_pct = c.allocated / c.total_cost)
      ∧ (c.total_cost ≤ 0 → c.coverage_pct = 0) := by
  rw [coverIn_schedule, runPass]
  refine foldl_cover_ok states
    (fun s hs => mul_nonneg (hcs s hs).1 (hcs s hs).2) _ ?_
  intro c hc
  simp at hc

/-- Witness for C3 on a concrete instance: one state of cost 6 against a
budget of 10 is fully funded with coverage fraction 1. -/
theorem coverage_record_witness :
    (⟨"A", 6, 6, 1, true⟩ : Cov ℚ).allocated ≤ (⟨"A", 6, 6, 1, true⟩ : Cov ℚ).total_cost
    ∧ ((⟨"A", 6, 6, 1, true⟩ : Cov ℚ).fully_funded = true
        ↔ (⟨"A", 6, 6, 1, true⟩ : Cov ℚ).total_cost ≤ (⟨"A", 6, 6, 1, true⟩ : Cov ℚ).allocated)
    ∧ (0 < (⟨"A", 6, 6, 1, true⟩ : Cov ℚ).total_cost
        → (⟨"A", 6, 6, 1, true⟩ : Cov ℚ).coverage_pct
          = (⟨"A", 6, 6, 1, true⟩ : Cov ℚ).allocated / (⟨"A", 6, 6, 1, true⟩ : Cov ℚ).total_cost)
    ∧ ((⟨"A", 6, 6, 1, true⟩ : Cov ℚ).total_cost ≤ 0
        → (⟨"A", 6, 6, 1, true⟩ : Cov ℚ).coverage_pct = 0) :=
  coverage_record_correct_schedule_allow_split [⟨"A", 2, 3⟩] [("q1", (10 : ℚ))]
    (by decide) (by decide) ⟨"A", 6, 6, 1, true⟩ (by
      have h : coverIn (schedule_allow_split [⟨"A", 2, 3⟩] [("q1", (10 : ℚ))])
          = [⟨"A", 6, 6, 1, true⟩] := by
        norm_num [coverIn, schedule_allow_split, runPass, processState, allocQuarters,
          compute_state_cost, dictGet, dictSet, min_def]
        rw [if_neg (show ¬("q1" : String) = "coverage" by decide),
          if_neg (show ¬("remaining_budgets" : String) = "coverage" by decide)]
      rw [h]
      exact List.mem_singleton.mpr rfl)

/-- C8: during the allocation pass of schedule_allow_split with non-negative
budgets, every period's remaining budget is non-increasing over the pass and
never negative; once it is zero after some prefix of the states it stays
zero and the period's allocation list never changes again; and no recorded
allocation has amount zero or less. -/
theorem allocation_pass_invariants_schedule_allow_split
    (states : List (SState α)) (budgets : List (String × α)) (q : String)
    (hb : ∀ p ∈ budgets, 0 ≤ p.2) :
    (∀ s1 s2 : List (SState α), states = s1 ++ s2 →
        remAt q (runPass states budgets).remaining ≤ remAt q (runPass s1 budgets).remaining
        ∧ 0 ≤ remAt q (runPass s1 budgets).remaining)
    ∧ (∀ s1 s2 : List (SState α), states = s1 ++ s2 →
        remAt q (runPass s1 budgets).remaining = 0 →
        remAt q (runPass states budgets).remaining = 0
        ∧ dictGet q (runPass states budgets).sched = dictGet q (runPass s1 budgets).sched)
    ∧ (∀ l : List (Alloc α),
        dictGet q (schedule_allow_split states budgets) = some (SchedVal.allocs l) →
        ∀ a ∈ l, 0 < a.allocated) := by
  have hinit : 0 ≤ remAt q budgets := by
    rw [remAt]
    cases hg : dictGet q budgets with
    | none => simp
    | some v => simpa using hb (q, v) (mem_of_dictGet_eq_some hg)
  refine ⟨?_, ?_, ?_⟩
  · intro s1 s2 hsplit
    constructor
    · rw [hsplit, runPass, runPass, List.foldl_append]
      exact foldl_rem_le q s2 _
    · rw [runPass]
      exact foldl_rem_nonneg q s1 _ hinit
  · intro s1 s2 hsplit h0
    rw [runPass] at h0
    rw [hsplit, runPass, runPass, List.foldl_append]
    exact foldl_zero_frozen q s2 _ h0
  · intro l hl a ha
    by_cases hq2 : q = "coverage"
    · subst hq2
      simp only [schedule_allow_split] at hl
      rw [dictGet_dictSet_self] at hl
      simp at hl
    by_cases hq1 : q = "remaining_budgets"
    · subst hq1
      simp only [schedule_allow_split] at hl
      rw [dictGet_dictSet_ne (show ("remaining_budgets" : String) ≠ "coverage" by decide),
        dictGet_dictSet_self] at hl
      simp at hl
    · simp only [schedule_allow_split] at hl
      rw [dictGet_dictSet_ne hq2, dictGet_dictSet_ne hq1,
        dictGet_map_snd q (fun x => SchedVal.allocs x)] at hl
      rcases Option.map_eq_some'.mp hl with ⟨l', hl', he⟩
      have hll : l' = l := by
        cases he
        rfl
      subst hll
      rw [runPass] at hl'
      refine foldl_allocs_pos q states _ ?_ l' hl' a ha
      intro l0 h0 a0 ha0
      rw [dictGet_map_snd q (fun _ => ([] : List (Alloc α)))] at h0
      rcases Option.map_eq_some'.mp h0 with ⟨w, hw, he0⟩
      rw [← he0] at ha0
      simp at ha0

/-- Witness for C8 on a concrete instance: one state, one budget period. -/
theorem allocation_pass_invariants_witness :
    (∀ s1 s2 : List (SState ℚ), [⟨"A", 2, 3⟩] = s1 ++ s2 →
        remAt "q1" (runPass [⟨"A", 2, 3⟩] [("q1", (4 : ℚ))]).remaining
          ≤ remAt "q1" (runPass s1 [("q1", (4 : ℚ))]).remaining
        ∧ 0 ≤ remAt "q1" (runPass s1 [("q1", (4 : ℚ))]).remaining)
    ∧ (∀ s1 s2 : List (SState ℚ), [⟨"A", 2, 3⟩] = s1 ++ s2 →
        remAt "q1" (runPass s1 [("q1", (4 : ℚ))]).remaining = 0 →
        remAt "q1" (runPass [⟨"A", 2, 3⟩] [("q1", (4 : ℚ))]).remaining = 0
        ∧ dictGet "q1" (runPass [⟨"A", 2, 3⟩] [("q1", (4 : ℚ))]).sched
          = dictGet "q1" (runPass s1 [("q1", (4 : ℚ))]).sched)
    ∧ (∀ l : List (Alloc ℚ),
        dictGet "q1" (schedule_allow_split [⟨"A", 2, 3⟩] [("q1", (4 : ℚ))])
          = some (SchedVal.allocs l) →
        ∀ a ∈ l, 0 < a.allocated) :=
  allocation_pass_invariants_schedule_allow_split [⟨"A", 2, 3⟩] [("q1", (4 : ℚ))] "q1"
    (by decide)

/-- C10: the returned flat dictionary never carries a per-period allocation
list under the keys "remaining_budgets" or "coverage": whatever allocation
list was stored there for a period of that name is overwritten by the
bookkeeping entries before the function returns, which instead hold the
remaining-budget map and the coverage list. -/
theorem key_collision_schedule_allow_split
    (states : List (SState α)) (budgets : List (String × α))
    (hnd : (budgets.map Prod.fst).Nodup) :
    (∀ l : List (Alloc α),
      ("remaining_budgets", SchedVal.allocs l) ∉ schedule_allow_split states budgets)
    ∧ (∀ l : List (Alloc α),
      ("coverage", SchedVal.allocs l) ∉ schedule_allow_split states budgets)
    ∧ dictGet "remaining_budgets" (schedule_allow_split states budgets)
        = some (SchedVal.budgets (runPass states budgets).remaining)
    ∧ dictGet "coverage" (schedule_allow_split states budgets)
        = some (SchedVal.cover (runPass states budgets).coverage) := by
  have hkeys := runPass_keys states budgets
  have hbase : (((runPass states budgets).sched.map
      (fun p => (p.1, SchedVal.allocs p.2))).map Prod.fst).Nodup := by
    rw [List.map_map]
    have : (Prod.fst ∘ fun p : String × List (Alloc α) => (p.1, SchedVal.allocs p.2))
        = Prod.fst := rfl
    rw [this, hkeys.2]
    exact hnd
  refine ⟨?_, ?_, ?_, ?_⟩
  · intro l hm
    simp only [schedule_allow_split] at hm
    have hm1 := mem_dictSet_of_ne
      (show ("remaining_budgets" : String) ≠ "coverage" by decide) hm
    have := eq_of_mem_dictSet_self hbase hm1
    simp at this
  · intro l hm
    simp only [schedule_allow_split] at hm
    have hnd2 := nodup_map_fst_dictSet "remaining_budgets"
      (SchedVal.budgets (runPass states budgets).remaining) hbase
    have := eq_of_mem_dictSet_self hnd2 hm
    simp at this
  · simp only [schedule_allow_split]
    rw [dictGet_dictSet_ne (show ("remaining_budgets" : String) ≠ "coverage" by decide),
      dictGet_dictSet_self]
  · simp only [schedule_allow_split]
    rw [dictGet_dictSet_self]

/-- Witness for C10 on a concrete instance whose budgets include a period
literally named "remaining_budgets": its allocation list is absent from the
returned dictionary. -/
theorem key_collision_witness :
    (∀ l : List (Alloc ℚ),
      ("remaining_budgets", SchedVal.allocs l)
        ∉ schedule_allow_split [⟨"A", 2, 3⟩] [("remaining_budgets", (4 : ℚ)), ("q2", 1)])
    ∧ (∀ l : List (Alloc ℚ),
      ("coverage", SchedVal.allocs l)
        ∉ schedule_allow_split [⟨"A", 2, 3⟩] [("remaining_budgets", (4 : ℚ)), ("q2", 1)])
    ∧ dictGet "remaining_budgets"
        (schedule_allow_split [⟨"A", 2, 3⟩] [("remaining_budgets", (4 : ℚ)), ("q2", 1)])
        = some (SchedVal.budgets
            (runPass [⟨"A", 2, 3⟩] [("remaining_budgets", (4 : ℚ)), ("q2", 1)]).remaining)
    ∧ dictGet "coverage"
        (schedule_allow_split [⟨"A", 2, 3⟩] [("remaining_budgets", (4 : ℚ)), ("q2", 1)])
        = some (SchedVal.cover
            (runPass [⟨"A", 2, 3⟩] [("remaining_budgets", (4 : ℚ)), ("q2", 1)]).coverage) :=
  key_collision_schedule_allow_split [⟨"A", 2, 3⟩]
    [("remaining_budgets", (4 : ℚ)), ("q2", 1)] (by decide)

end SchedulerClaims

/-! ## Ranking engine lemmas -/

section TopsisLemmas

variable {α : Type} [LinearOrderedField α]

theorem getD_range_map {β : Type} (f : ℕ → β) (m j : ℕ) (hj : j < m) (d : β) :
    ((List.range m).map f).getD j d = f j := by
  rw [List.getD_eq_getElem?_getD, List.getElem?_map, List.getElem?_range hj]
  rfl

theorem getD_map_lt {β γ : Type} (g : β → γ) {xss : List β} {i : ℕ}
    (hi : i < xss.length) (d : γ) (d' : β) :
    (xss.map g).getD i d = g (xss.getD i d') := by
  rw [List.getD_eq_getElem?_getD, List.getD_eq_getElem?_getD, List.getElem?_map,
    List.getElem?_eq_getElem hi]
  rfl

theorem getD_map_ge {β γ : Type} (g : β → γ) {xss : List β} {i : ℕ}
    (hi : xss.length ≤ i) (d : γ) :
    (xss.map g).getD i d = d := by
  rw [List.getD_eq_getElem?_getD, List.getElem?_eq_none (by simpa using hi)]
  rfl

theorem getD_mem_of_lt {β : Type} {xss : List β} {i : ℕ}
    (hi : i < xss.length) (d : β) : xss.getD i d ∈ xss := by
  rw [List.getD_eq_getElem?_getD, List.getElem?_eq_getElem hi]
  exact List.getElem_mem hi

theorem list_sum_zero_of_nonneg {l : List α} (h : ∀ x ∈ l, 0 ≤ x) (hs : l.sum = 0) :
    ∀ x ∈ l, x = 0 := by
  induction l with
  | nil => simp
  | cons a l ih =>
    rw [List.sum_cons] at hs
    have ha : 0 ≤ a := h a (List.mem_cons_self _ _)
    have hl : 0 ≤ l.sum := List.sum_nonneg (fun x hx => h x (List.mem_cons_of_mem _ hx))
    have ha0 : a = 0 := by linarith
    have hl0 : l.sum = 0 := by linarith
    intro x hx
    rcases List.mem_cons.mp hx with hx | hx
    · rw [hx, ha0]
    · exact ih (fun y hy => h y (List.mem_cons_of_mem _ hy)) hl0 x hx

theorem colSumSq_nonneg (xss : List (List α)) (j : ℕ) : 0 ≤ colSumSq xss j :=
  List.sum_nonneg (by
    intro x hx
    rcases List.mem_map.mp hx with ⟨row, _, hrow⟩
    rw [← hrow]
    exact sq_nonneg _)

theorem colSumSq_zero_entry {xss : List (List α)} {j : ℕ}
    (h : colSumSq xss j = 0) {row : List α} (hrow : row ∈ xss) : row.getD j 0 = 0 := by
  have h' : (xss.map (fun row => (row.getD j 0) ^ 2)).sum = 0 := h
  have hmem : (row.getD j 0) ^ 2 ∈ xss.map (fun row => (row.getD j 0) ^ 2) :=
    List.mem_map_of_mem _ hrow
  have hz := list_sum_zero_of_nonneg
    (by
      intro x hx
      rcases List.mem_map.mp hx with ⟨r, _, hr⟩
      rw [← hr]
      exact sq_nonneg _) h' _ hmem
  exact pow_eq_zero_iff (by norm_num) |>.mp hz

end TopsisLemmas

/-! ## Ranking engine claims C5 and C6 -/

section TopsisClaims1

variable {α : Type} [LinearOrderedField α]

/-- C5: in the vector-normalization step, a column whose Euclidean norm is
exactly zero is divided by the substituted divisor 1 and comes out all
zeros, with no error; a column with nonzero norm is divided by that norm. -/
theorem zero_norm_column_normalization (sqrt : α → α)
    (hs : ∀ x : α, 0 ≤ x → sqrt x = 0 → x = 0)
    (xss : List (List α)) (m j : ℕ) (hj : j < m) :
    (sqrt (colSumSq xss j) = 0 →
      (colNorms sqrt xss m).getD j 1 = 1
      ∧ ∀ i : ℕ, ((normMatrix sqrt xss m).getD i []).getD j 0 = 0)
    ∧ (sqrt (colSumSq xss j) ≠ 0 →
      (colNorms sqrt xss m).getD j 1 = sqrt (colSumSq xss j)
      ∧ ∀ i : ℕ, i < xss.length →
        ((normMatrix sqrt xss m).getD i []).getD j 0
          = (xss.getD i []).getD j 0 / sqrt (colSumSq xss j)) := by
  have hcn : (colNorms sqrt xss m).getD j 1
      = if sqrt (colSumSq xss j) = 0 then 1 else sqrt (colSumSq xss j) := by
    rw [colNorms, getD_range_map _ _ _ hj]
  have hrow : ∀ i : ℕ, i < xss.length →
      (normMatrix sqrt xss m).getD i []
      = (List.range m).map (fun j' =>
          (xss.getD i []).getD j' 0 / (colNorms sqrt xss m).getD j' 1) := by
    intro i hi
    rw [normMatrix, getD_map_lt _ hi]
  constructor
  · intro h0
    have hzero : colSumSq xss j = 0 := hs _ (colSumSq_nonneg xss j) h0
    refine ⟨by rw [hcn, if_pos h0], ?_⟩
    intro i
    by_cases hi : i < xss.length
    · rw [hrow i hi, getD_range_map _ _ _ hj]
      have he : (xss.getD i []).getD j 0 = 0 :=
        colSumSq_zero_entry hzero (getD_mem_of_lt hi [])
      rw [he, zero_div]
    · rw [normMatrix, getD_map_ge _ (not_lt.mp hi)]
      rfl
  · intro hne
    refine ⟨by rw [hcn, if_neg hne], ?_⟩
    intro i hi
    rw [hrow i hi, getD_range_map _ _ _ hj, hcn, if_neg hne]

/-- Witness for C5: a 2 x 1 matrix whose only column is all zeros, with the
identity as the stand-in square root. -/
theorem zero_norm_column_witness :
    (idSqrt (colSumSq [[(0 : ℚ)], [0]] 0) = 0 →
      (colNorms idSqrt [[(0 : ℚ)], [0]] 1).getD 0 1 = 1
      ∧ ∀ i : ℕ, ((normMatrix idSqrt [[(0 : ℚ)], [0]] 1).getD i []).getD 0 0 = 0)
    ∧ (idSqrt (colSumSq [[(0 : ℚ)], [0]] 0) ≠ 0 →
      (colNorms idSqrt [[(0 : ℚ)], [0]] 1).getD 0 1 = idSqrt (colSumSq [[(0 : ℚ)], [0]] 0)
      ∧ ∀ i : ℕ, i < ([[(0 : ℚ)], [0]] : List (List ℚ)).length →
        ((normMatrix idSqrt [[(0 : ℚ)], [0]] 1).getD i []).getD 0 0
          = (([[(0 : ℚ)], [0]] : List (List ℚ)).getD i []).getD 0 0
            / idSqrt (colSumSq [[(0 : ℚ)], [0]] 0)) :=
  zero_norm_column_normalization idSqrt (fun x _ h => h) [[(0 : ℚ)], [0]] 1 0 (by decide)

/-- C6: each entity's closeness coefficient is the distance to the ideal
worst divided by the sum of its two distances, 0 when that sum is zero; and
when the two distances are not both zero it lies in the closed interval
from 0 to 1. -/
theorem closeness_formula_and_bounds (sqrt : α → α)
    (hs : ∀ x : α, 0 ≤ x → 0 ≤ sqrt x)
    (V : List (List α)) (Ap Am : List α) (n m i : ℕ) (hi : i < n) :
    (closenessList sqrt V Ap Am n m).getD i 0
      = closenessOf (euclidean_dist sqrt (V.getD i []) Ap m)
          (euclidean_dist sqrt (V.getD i []) Am m)
    ∧ (¬(euclidean_dist sqrt (V.getD i []) Ap m = 0
          ∧ euclidean_dist sqrt (V.getD i []) Am m = 0) →
        0 ≤ (closenessList sqrt V Ap Am n m).getD i 0
        ∧ (closenessList sqrt V Ap Am n m).getD i 0 ≤ 1) := by
  have hdist : ∀ A : List α, 0 ≤ euclidean_dist sqrt (V.getD i []) A m := by
    intro A
    refine hs _ (List.sum_nonneg ?_)
    intro x hx
    rcases List.mem_map.mp hx with ⟨j', _, hj'⟩
    rw [← hj']
    exact sq_nonneg _
  have hdl : ∀ A : List α, (distList sqrt V A n m).getD i 0
      = euclidean_dist sqrt (V.getD i []) A m := by
    intro A
    rw [distList, getD_range_map _ _ _ hi]
  have hgd : (closenessList sqrt V Ap Am n m).getD i 0
      = closenessOf (euclidean_dist sqrt (V.getD i []) Ap m)
          (euclidean_dist sqrt (V.getD i []) Am m) := by
    rw [closenessList, getD_range_map _ _ _ hi, hdl, hdl]
  rw [hgd]
  refine ⟨rfl, ?_⟩
  intro hnb
  have hsp0 : 0 ≤ euclidean_dist sqrt (V.getD i []) Ap m := hdist Ap
  have hsm0 : 0 ≤ euclidean_dist sqrt (V.getD i []) Am m := hdist Am
  rw [closenessOf]
  by_cases hz : euclidean_dist sqrt (V.getD i []) Ap m
      + euclidean_dist sqrt (V.getD i []) Am m = 0
  · exact absurd ⟨by linarith, by linarith⟩ hnb
  · rw [if_neg hz]
    have hpos : 0 < euclidean_dist sqrt (V.getD i []) Ap m
        + euclidean_dist sqrt (V.getD i []) Am m :=
      lt_of_le_of_ne (by linarith) (Ne.symm hz)
    constructor
    · exact div_nonneg hsm0 (le_of_lt hpos)
    · rw [div_le_one hpos]
      linarith

/-- Witness for C6: one entity at distance 1 from the ideal best and 1 from
the ideal worst, with the identity stand-in square root. -/
theorem closeness_formula_witness :
    (closenessList idSqrt [[(1 : ℚ)]] [0] [2] 1 1).getD 0 0
      = closenessOf (euclidean_dist idSqrt (([[(1 : ℚ)]] : List (List ℚ)).getD 0 []) [0] 1)
          (euclidean_dist idSqrt (([[(1 : ℚ)]] : List (List ℚ)).getD 0 []) [2] 1)
    ∧ (¬(euclidean_dist idSqrt (([[(1 : ℚ)]] : List (List ℚ)).getD 0 []) [0] 1 = 0
          ∧ euclidean_dist idSqrt (([[(1 : ℚ)]] : List (List ℚ)).getD 0 []) [2] 1 = 0) →
        0 ≤ (closenessList idSqrt [[(1 : ℚ)]] [0] [2] 1 1).getD 0 0
        ∧ (closenessList idSqrt [[(1 : ℚ)]] [0] [2] 1 1).getD 0 0 ≤ 1) :=
  closeness_formula_and_bounds idSqrt (fun x h => h) [[(1 : ℚ)]] [0] [2] 1 1 0 (by decide)

end TopsisClaims1

/-! ## Stable descending sort lemmas and claim C7 -/

section SortLemmas

variable {α : Type} [LinearOrderedField α]

theorem insertDesc_perm (a : RankEntry α) (l : List (RankEntry α)) :
    (insertDesc a l).Perm (a :: l) := by
  induction l with
  | nil => exact List.Perm.refl _
  | cons b l ih =>
    rw [insertDesc]
    by_cases h : b.closeness ≤ a.closeness
    · rw [if_pos h]
    · rw [if_neg h]
      exact List.Perm.trans (List.Perm.cons b ih) (List.Perm.swap a b l)

theorem sortDesc_perm (l : List (RankEntry α)) : (sortDesc l).Perm l := by
  induction l with
  | nil => exact List.Perm.refl _
  | cons a l ih =>
    rw [sortDesc]
    exact List.Perm.trans (insertDesc_perm a (sortDesc l)) (List.Perm.cons a ih)

theorem pairwise_insertDesc (a : RankEntry α) (l : List (RankEntry α))
    (hl : List.Pairwise (fun x y : RankEntry α => y.closeness ≤ x.closeness) l) :
    List.Pairwise (fun x y : RankEntry α => y.closeness ≤ x.closeness) (insertDesc a l) := by
  induction l with
  | nil => simp [insertDesc]
  | cons b l ih =>
    rcases List.pairwise_cons.mp hl with ⟨hb, hl'⟩
    rw [insertDesc]
    by_cases h : b.closeness ≤ a.closeness
    · rw [if_pos h]
      refine List.pairwise_cons.mpr ⟨?_, hl⟩
      intro y hy
      rcases List.mem_cons.mp hy with hy | hy
      · rw [hy]
        exact h
      · exact le_trans (hb y hy) h
    · rw [if_neg h]
      refine List.pairwise_cons.mpr ⟨?_, ih hl'⟩
      intro y hy
      rcases List.mem_cons.mp ((insertDesc_perm a l).mem_iff.mp hy) with hy' | hy'
      · rw [hy']
        exact le_of_lt (not_le.mp h)
      · exact hb y hy'

theorem pairwise_sortDesc (l : List (RankEntry α)) :
    List.Pairwise (fun x y : RankEntry α => y.closeness ≤ x.closeness) (sortDesc l) := by
  induction l with
  | nil => simp [sortDesc]
  | cons a l ih =>
    rw [sortDesc]
    exact pairwise_insertDesc a (sortDesc l) ih

theorem filter_insertDesc (a : RankEntry α) (l : List (RankEntry α)) (c : α)
    (hl : List.Pairwise (fun x y : RankEntry α => y.closeness ≤ x.closeness) l) :
    (insertDesc a l).filter (fun e => decide (e.closeness = c))
    = if a.closeness = c then a :: l.filter (fun e => decide (e.closeness = c))
      else l.filter (fun e => decide (e.closeness = c)) := by
  induction l with
  | nil =>
    by_cases hac : a.closeness = c
    · rw [if_pos hac]
      simp [insertDesc, List.filter_cons, hac]
    · rw [if_neg hac]
      simp [insertDesc, List.filter_cons, hac]
  | cons b l ih =>
    rcases List.pairwise_cons.mp hl with ⟨hb, hl'⟩
    rw [insertDesc]
    by_cases h : b.closeness ≤ a.closeness
    · rw [if_pos h]
      by_cases hac : a.closeness = c
      · rw [if_pos hac]
        simp [List.filter_cons, hac]
      · rw [if_neg hac]
        simp [List.filter_cons, hac]
    · rw [if_neg h]
      by_cases hac : a.closeness = c
      · rw [if_pos hac]
        have hbne : ¬(b.closeness = c) := by
          intro hbc
          rw [hbc, ← hac] at h
          exact h (le_refl _)
        rw [List.filter_cons, List.filter_cons,
          if_neg (by simp [hbne]), if_neg (by simp [hbne]), ih hl', if_pos hac]
      · rw [if_neg hac]
        rw [List.filter_cons, List.filter_cons]
        rw [ih hl', if_neg hac]

theorem sortDesc_filter (l : List (RankEntry α)) (c : α) :
    (sortDesc l).filter (fun e => decide (e.closeness = c))
    = l.filter (fun e => decide (e.closeness = c)) := by
  induction l with
  | nil => rfl
  | cons a l ih =>
    rw [sortDesc, filter_insertDesc a (sortDesc l) c (pairwise_sortDesc l)]
    by_cases hac : a.closeness = c
    · rw [if_pos hac, ih, List.filter_cons]
      simp [hac]
    · rw [if_neg hac, ih, List.filter_cons]
      simp [hac]

theorem rankResults_map_closeness (l : List (RankEntry α)) :
    (rankResults l).map RankedEntry.closeness = (sortDesc l).map RankEntry.closeness := by
  rw [rankResults, List.mapIdx_eq_enum_map, List.map_map]
  have : (RankedEntry.closeness (α := α) ∘ Function.uncurry fun (i : ℕ) (e : RankEntry α) =>
      (⟨e.name, e.closeness, e.score, e.cost_per_habitant, e.population, i + 1⟩ : RankedEntry α))
      = RankEntry.closeness ∘ Prod.snd := rfl
  rw [this, ← List.map_map, List.enum_map_snd]

end SortLemmas

section TopsisClaims2

variable {α : Type} [LinearOrderedField α]

/-- C7: the ranking engine's sort is a stable descending sort by closeness:
the sorted list is pairwise descending in closeness, is a permutation of its
input, and for every closeness value the entries carrying that value appear
in exactly their original input order; the rank-attachment step preserves
this order. -/
theorem stable_descending_sort_ranking (l : List (RankEntry α)) :
    List.Pairwise (fun x y : RankEntry α => y.closeness ≤ x.closeness) (sortDesc l)
    ∧ (sortDesc l).Perm l
    ∧ (∀ c : α, (sortDesc l).filter (fun e => decide (e.closeness = c))
        = l.filter (fun e => decide (e.closeness = c)))
    ∧ (rankResults l).map RankedEntry.closeness = (sortDesc l).map RankEntry.closeness :=
  ⟨pairwise_sortDesc l, sortDesc_perm l,
    fun c => sortDesc_filter l c, rankResults_map_closeness l⟩

end TopsisClaims2

/-! ## Claim C9: default weights -/

section TopsisClaims3

variable {α : Type} [LinearOrderedField α]

/-- C9: when no weight mapping is supplied, topsis_rank_states behaves
exactly as if the default weighting had been passed, and that default is
score 0.6, cost_per_habitant 0.3, population 0.1 (the values of line 44 of
the source, not the 0.6/0.4/0.0 of its docstring). -/
theorem default_weights_zero_six_three_one (sqrt : α → α) (states : List (PyState α))
    (flagsOpt : Option (List (String × Bool))) (order : List String) :
    topsis_rank_states sqrt states none flagsOpt order
      = topsis_rank_states sqrt states (some (defaultWeights (α := α))) flagsOpt order
    ∧ defaultWeights (α := α)
      = [("score", 0.6), ("cost_per_habitant", 0.3), ("population", 0.1)] :=
  ⟨rfl, rfl⟩

end TopsisClaims3

/-! ## Validation and error-path lemmas for the ranking engine -/

section TopsisC4Lemmas

variable {α : Type} [LinearOrderedField α]

theorem isSome_of_not_isNone {β : Type} {o : Option β} (h : ¬ o.isNone = true) :
    o.isSome = true := by
  cases o
  · simp at h
  · rfl

theorem checkCriteria_ok_iff (w : List (String × α)) (fl : List (String × Bool))
    (order : List String) :
    checkCriteria w fl order = .ok ()
    ↔ ∀ c ∈ order, (dictGet c w).isSome ∧ (dictGet c fl).isSome := by
  induction order with
  | nil => simp [checkCriteria]
  | cons c cs ih =>
    rw [checkCriteria]
    by_cases h1 : (dictGet c w).isNone
    · rw [if_pos h1]
      constructor
      · intro h
        exact absurd h (by simp)
      · intro h
        have hh := (h c (List.mem_cons_self _ _)).1
        rw [Option.isNone_iff_eq_none.mp h1] at hh
        simp at hh
    · rw [if_neg h1]
      by_cases h2 : (dictGet c fl).isNone
      · rw [if_pos h2]
        constructor
        · intro h
          exact absurd h (by simp)
        · intro h
          have hh := (h c (List.mem_cons_self _ _)).2
          rw [Option.isNone_iff_eq_none.mp h2] at hh
          simp at hh
      · rw [if_neg h2, ih]
        constructor
        · intro h c' hc'
          rcases List.mem_cons.mp hc' with hc' | hc'
          · subst hc'
            exact ⟨isSome_of_not_isNone h1, isSome_of_not_isNone h2⟩
          · exact h c' hc'
        · intro h c' hc'
          exact h c' (List.mem_cons_of_mem _ hc')

theorem checkCriteria_error (w : List (String × α)) (fl : List (String × Bool))
    (order : List String) :
    checkCriteria w fl order = .ok ()
    ∨ ∃ msg, checkCriteria w fl order = .error (.valueError msg) := by
  induction order with
  | nil => exact Or.inl rfl
  | cons c cs ih =>
    rw [checkCriteria]
    by_cases h1 : (dictGet c w).isNone
    · rw [if_pos h1]
      exact Or.inr ⟨_, rfl⟩
    · rw [if_neg h1]
      by_cases h2 : (dictGet c fl).isNone
      · rw [if_pos h2]
        exact Or.inr ⟨_, rfl⟩
      · rw [if_neg h2]
        exact ih

theorem checkStates_ok_iff (order : List String) (states : List (PyState α)) :
    checkStates order states = .ok ()
    ↔ ∀ s ∈ states, ∀ c ∈ order, (dictGet c s.attrs).isSome := by
  induction states with
  | nil => simp [checkStates]
  | cons s ss ih =>
    rw [checkStates]
    by_cases h : order.all (fun c => (dictGet c s.attrs).isSome)
    · rw [if_pos h, ih]
      constructor
      · intro hh s' hs'
        rcases List.mem_cons.mp hs' with hs' | hs'
        · subst hs'
          exact fun c hc => List.all_eq_true.mp h c hc
        · exact hh s' hs'
      · intro hh s' hs'
        exact hh s' (List.mem_cons_of_mem _ hs')
    · rw [if_neg h]
      constructor
      · intro hh
        exact absurd hh (by simp)
      · intro hh
        exact absurd (List.all_eq_true.mpr
          (fun c hc => hh s (List.mem_cons_self _ _) c hc)) h

theorem checkStates_error (order : List String) (states : List (PyState α)) :
    checkStates order states = .ok ()
    ∨ ∃ msg, checkStates order states = .error (.valueError msg) := by
  induction states with
  | nil => exact Or.inl rfl
  | cons s ss ih =>
    rw [checkStates]
    by_cases h : order.all (fun c => (dictGet c s.attrs).isSome)
    · rw [if_pos h]
      exact ih
    · rw [if_neg h]
      exact Or.inr ⟨_, rfl⟩

theorem idealsLoop_error {fl : List (String × Bool)} {order : List String}
    {V : List (List α)} {js : List ℕ}
    (h : ∃ e, idealsLoop fl order V js = .error e) : V = [] := by
  induction js with
  | nil =>
    rcases h with ⟨e, h⟩
    exact absurd h (by simp [idealsLoop])
  | cons j js ih =>
    rcases h with ⟨e, h⟩
    rw [idealsLoop] at h
    cases hm : (V.map (fun row => row.getD j 0)).max? with
    | none => exact List.map_eq_nil_iff.mp (List.max?_eq_none_iff.mp hm)
    | some mx =>
      simp only [colMaxE, hm] at h
      cases hn : (V.map (fun row => row.getD j 0)).min? with
      | none => exact List.map_eq_nil_iff.mp (List.min?_eq_none_iff.mp hn)
      | some mn =>
        simp only [colMinE, hn] at h
        cases hrec : idealsLoop fl order V js with
        | error e' => exact ih ⟨e', hrec⟩
        | ok pr =>
          rcases pr with ⟨ap, am⟩
          simp only [hrec] at h
          by_cases hf : ((dictGet (order.getD j "") fl).getD false : Bool)
          · rw [if_pos hf] at h
            exact absurd h (by simp)
          · rw [if_neg hf] at h
            exact absurd h (by simp)

theorem buildEntriesLoop_error {l : List (PyState α × α)}
    (h : ∃ e, buildEntriesLoop l = .error e) :
    ∃ p ∈ l, (dictGet "score" p.1.attrs = none
      ∨ dictGet "cost_per_habitant" p.1.attrs = none
      ∨ dictGet "population" p.1.attrs = none) := by
  induction l with
  | nil =>
    rcases h with ⟨e, h⟩
    exact absurd h (by simp [buildEntriesLoop])
  | cons p ps ih =>
    rcases h with ⟨e, h⟩
    rcases p with ⟨s, cl⟩
    rw [buildEntriesLoop] at h
    cases h1 : dictGet "score" s.attrs with
    | none => exact ⟨(s, cl), List.mem_cons_self _ _, Or.inl h1⟩
    | some v1 =>
      rw [h1] at h
      cases h2 : dictGet "cost_per_habitant" s.attrs with
      | none => exact ⟨(s, cl), List.mem_cons_self _ _, Or.inr (Or.inl h2)⟩
      | some v2 =>
        rw [h2] at h
        cases h3 : dictGet "population" s.attrs with
        | none => exact ⟨(s, cl), List.mem_cons_self _ _, Or.inr (Or.inr h3)⟩
        | some v3 =>
          rw [h3] at h
          cases hrec : buildEntriesLoop ps with
          | error e' =>
            rcases ih ⟨e', hrec⟩ with ⟨p', hp', hmiss⟩
            exact ⟨p', List.mem_cons_of_mem _ hp', hmiss⟩
          | ok res =>
            rw [hrec] at h
            exact absurd h (by simp)

theorem topsisCore_ok_of (sqrt : α → α) (states : List (PyState α))
    (w : List (String × α)) (fl : List (String × Bool)) (order : List String)
    (hcc : ∀ c ∈ order, (dictGet c w).isSome ∧ (dictGet c fl).isSome)
    (hcs : ∀ s ∈ states, ∀ c ∈ order, (dictGet c s.attrs).isSome)
    (hw : ¬(order.map (fun c => (dictGet c w).getD 0)).sum ≤ 0)
    (hne : states ≠ [])
    (hstd : ∀ s ∈ states, (dictGet "score" s.attrs).isSome
      ∧ (dictGet "cost_per_habitant" s.attrs).isSome
      ∧ (dictGet "population" s.attrs).isSome) :
    topsisCore sqrt states w fl order = .ok () := by
  have hccok := (checkCriteria_ok_iff w fl order).mpr hcc
  have hcsok := (checkStates_ok_iff order states).mpr hcs
  simp only [topsisCore, hccok, hcsok]
  rw [if_neg hw]
  split
  · rename_i e hid
    exfalso
    have hV := idealsLoop_error ⟨e, by rwa [idealsE] at hid⟩
    simp only [weightMatrix, normMatrix, buildX, List.map_eq_nil_iff] at hV
    exact hne hV
  · rename_i pr Ap Am hid
    split
    · rename_i e hbe
      exfalso
      rcases buildEntriesLoop_error ⟨e, by rwa [buildEntriesE] at hbe⟩ with ⟨p, hp, hmiss⟩
      rcases p with ⟨ps, pc⟩
      have hsp := hstd ps (List.of_mem_zip hp).1
      rcases hmiss with hmm | hmm | hmm <;> rw [hmm] at hsp <;> simp at hsp
    · rfl

theorem topsisCore_outcome (sqrt : α → α) (states : List (PyState α))
    (w : List (String × α)) (fl : List (String × Bool)) (order : List String)
    (hne : states ≠ [])
    (hstd : ∀ s ∈ states, (dictGet "score" s.attrs).isSome
      ∧ (dictGet "cost_per_habitant" s.attrs).isSome
      ∧ (dictGet "population" s.attrs).isSome) :
    (((∃ c ∈ order, dictGet c w = none) ∨ (∃ c ∈ order, dictGet c fl = none)
        ∨ (∃ s ∈ states, ∃ c ∈ order, dictGet c s.attrs = none)
        ∨ (order.map (fun c => (dictGet c w).getD 0)).sum ≤ 0)
      ∧ ∃ msg, topsisCore sqrt states w fl order = .error (.valueError msg))
    ∨ (¬((∃ c ∈ order, dictGet c w = none) ∨ (∃ c ∈ order, dictGet c fl = none)
        ∨ (∃ s ∈ states, ∃ c ∈ order, dictGet c s.attrs = none)
        ∨ (order.map (fun c => (dictGet c w).getD 0)).sum ≤ 0)
      ∧ topsisCore sqrt states w fl order = .ok ()) := by
  by_cases hcc : ∀ c ∈ order, (dictGet c w).isSome ∧ (dictGet c fl).isSome
  · by_cases hcs : ∀ s ∈ states, ∀ c ∈ order, (dictGet c s.attrs).isSome
    · by_cases hw : (order.map (fun c => (dictGet c w).getD 0)).sum ≤ 0
      · refine Or.inl ⟨Or.inr (Or.inr (Or.inr hw)), "Sum of weights must be > 0.", ?_⟩
        have hccok := (checkCriteria_ok_iff w fl order).mpr hcc
        have hcsok := (checkStates_ok_iff order states).mpr hcs
        simp only [topsisCore, hccok, hcsok]
        rw [if_pos hw]
      · refine Or.inr ⟨?_, topsisCore_ok_of sqrt states w fl order hcc hcs hw hne hstd⟩
        rintro (⟨c, hc, hnone⟩ | ⟨c, hc, hnone⟩ | ⟨s, hsm, c, hc, hnone⟩ | hsum)
        · have hh := (hcc c hc).1
          rw [hnone] at hh
          simp at hh
        · have hh := (hcc c hc).2
          rw [hnone] at hh
          simp at hh
        · have hh := hcs s hsm c hc
          rw [hnone] at hh
          simp at hh
        · exact hw hsum
    · have hccok := (checkCriteria_ok_iff w fl order).mpr hcc
      rcases checkStates_error order states with hok | ⟨msg, herr⟩
      · exact absurd ((checkStates_ok_iff order states).mp hok) hcs
      · refine Or.inl ⟨?_, msg, ?_⟩
        · push_neg at hcs
          rcases hcs with ⟨s, hs, c, hc, hnsome⟩
          exact Or.inr (Or.inr (Or.inl ⟨s, hs, c, hc,
            Option.not_isSome_iff_eq_none.mp hnsome⟩))
        · simp only [topsisCore, hccok, herr]
  · rcases checkCriteria_error w fl order with hok | ⟨msg, herr⟩
    · exact absurd ((checkCriteria_ok_iff w fl order).mp hok) hcc
    · refine Or.inl ⟨?_, msg, ?_⟩
      · push_neg at hcc
        rcases hcc with ⟨c, hc, hnsome⟩
        by_cases h1 : (dictGet c w).isSome
        · exact Or.inr (Or.inl ⟨c, hc,
            Option.not_isSome_iff_eq_none.mp (fun h2 => hnsome h1 h2)⟩)
        · exact Or.inl ⟨c, hc, Option.not_isSome_iff_eq_none.mp h1⟩
      · simp only [topsisCore, herr]

end TopsisC4Lemmas

/-! ## Claims C4 and C1 -/

section TopsisClaims4

variable {α : Type} [LinearOrderedField α]

/-- C4 (amended): provided the entity list is non-empty and every entity
carries the three hard-coded output fields (score, cost_per_habitant,
population), topsis_rank_states raises a ValueError exactly when some
criterion in the evaluation order lacks a weight entry, or lacks a
benefit/cost flag entry, or some entity lacks a value for some criterion in
the evaluation order, or the total weight over the evaluation order is at
most 0; on every other such input it raises no error and runs to
completion. Without the two provisos the claim fails: an empty entity list
makes the max() of an empty column raise a ValueError that is not one of
the validation checks, and an entity without the hard-coded fields makes
the result-building step raise a KeyError. -/
theorem validation_error_iff_amended (sqrt : α → α) (states : List (PyState α))
    (weightsOpt : Option (List (String × α))) (flagsOpt : Option (List (String × Bool)))
    (order : List String)
    (hne : states ≠ [])
    (hstd : ∀ s ∈ states, (dictGet "score" s.attrs).isSome
      ∧ (dictGet "cost_per_habitant" s.attrs).isSome
      ∧ (dictGet "population" s.attrs).isSome) :
    ((∃ msg, topsis_rank_states sqrt states weightsOpt flagsOpt order
        = .error (.valueError msg))
      ↔ ((∃ c ∈ order, dictGet c (weightsOpt.getD defaultWeights) = none)
        ∨ (∃ c ∈ order, dictGet c (flagsOpt.getD defaultFlags) = none)
        ∨ (∃ s ∈ states, ∃ c ∈ order, dictGet c s.attrs = none)
        ∨ (order.map (fun c => (dictGet c (weightsOpt.getD defaultWeights)).getD 0)).sum ≤ 0))
    ∧ (¬((∃ c ∈ order, dictGet c (weightsOpt.getD defaultWeights) = none)
        ∨ (∃ c ∈ order, dictGet c (flagsOpt.getD defaultFlags) = none)
        ∨ (∃ s ∈ states, ∃ c ∈ order, dictGet c s.attrs = none)
        ∨ (order.map (fun c => (dictGet c (weightsOpt.getD defaultWeights)).getD 0)).sum ≤ 0)
      → topsis_rank_states sqrt states weightsOpt flagsOpt order = .ok ()) := by
  rcases topsisCore_outcome sqrt states (weightsOpt.getD defaultWeights)
    (flagsOpt.getD defaultFlags) order hne hstd with ⟨hc, msg, herr⟩ | ⟨hnc, hok⟩
  · refine ⟨⟨fun _ => hc, fun _ => ⟨msg, herr⟩⟩, fun hn => absurd hc hn⟩
  · refine ⟨⟨?_, fun hcond => absurd hcond hnc⟩, fun _ => hok⟩
    rintro ⟨msg, herr⟩
    exfalso
    have h2 : topsisCore sqrt states (weightsOpt.getD defaultWeights)
        (flagsOpt.getD defaultFlags) order = .error (.valueError msg) := herr
    rw [hok] at h2
    exact Except.noConfusion h2

/-- Witness for the amended C4: one entity carrying the three standard
fields, with a single-criterion evaluation order and explicit weight and
flag entries for it. -/
theorem validation_error_iff_witness :
    ((∃ msg, topsis_rank_states idSqrt
        [⟨"A", [("score", (5 : ℚ)), ("cost_per_habitant", 2), ("population", 3)]⟩]
        (some [("score", 1)]) (some [("score", true)]) ["score"]
        = .error (.valueError msg))
      ↔ ((∃ c ∈ ["score"],
            dictGet c ((some [("score", (1 : ℚ))]).getD defaultWeights) = none)
        ∨ (∃ c ∈ ["score"],
            dictGet c ((some [("score", true)]).getD defaultFlags) = none)
        ∨ (∃ s ∈ [(⟨"A", [("score", (5 : ℚ)), ("cost_per_habitant", 2), ("population", 3)]⟩
              : PyState ℚ)], ∃ c ∈ ["score"], dictGet c s.attrs = none)
        ∨ ((["score"].map (fun c =>
            (dictGet c ((some [("score", (1 : ℚ))]).getD defaultWeights)).getD 0)).sum ≤ 0)))
    ∧ (¬((∃ c ∈ ["score"],
            dictGet c ((some [("score", (1 : ℚ))]).getD defaultWeights) = none)
        ∨ (∃ c ∈ ["score"],
            dictGet c ((some [("score", true)]).getD defaultFlags) = none)
        ∨ (∃ s ∈ [(⟨"A", [("score", (5 : ℚ)), ("cost_per_habitant", 2), ("population", 3)]⟩
              : PyState ℚ)], ∃ c ∈ ["score"], dictGet c s.attrs = none)
        ∨ ((["score"].map (fun c =>
            (dictGet c ((some [("score", (1 : ℚ))]).getD defaultWeights)).getD 0)).sum ≤ 0))
      → topsis_rank_states idSqrt
          [⟨"A", [("score", (5 : ℚ)), ("cost_per_habitant", 2), ("population", 3)]⟩]
          (some [("score", 1)]) (some [("score", true)]) ["score"] = .ok ()) :=
  validation_error_iff_amended idSqrt
    [⟨"A", [("score", (5 : ℚ)), ("cost_per_habitant", 2), ("population", 3)]⟩]
    (some [("score", 1)]) (some [("score", true)]) ["score"]
    (by simp) (by decide)

/-- Counterexample to C4 as stated: on an empty entity list with a fully
valid weighting, flag map and evaluation order, none of the four validation
conditions holds, and yet the code raises a ValueError, coming from max()
on the empty first column at the ideal-point step. -/
theorem validation_error_iff_counterexample :
    topsis_rank_states (α := ℚ) idSqrt [] (some [("score", 1)]) (some [("score", true)])
      ["score"] = .error (.valueError "max() arg is an empty sequence")
    ∧ ¬((∃ c ∈ ["score"], dictGet c ((some [("score", (1 : ℚ))]).getD defaultWeights) = none)
      ∨ (∃ c ∈ ["score"], dictGet c ((some [("score", true)]).getD defaultFlags) = none)
      ∨ (∃ s ∈ ([] : List (PyState ℚ)), ∃ c ∈ ["score"], dictGet c s.attrs = none)
      ∨ ((["score"].map (fun c =>
          (dictGet c ((some [("score", (1 : ℚ))]).getD defaultWeights)).getD 0)).sum ≤ 0)) := by
  constructor
  · norm_num [topsis_rank_states, topsisCore, checkCriteria, checkStates, dictGet,
      buildX, colNorms, normMatrix, colSumSq, weightMatrix, idealsE, idealsLoop,
      colMaxE, colMinE, idSqrt, List.range_succ, List.range_zero]
  · norm_num [dictGet]
    exact ⟨by simp, by simp⟩

/-- C1 (the missing return): whenever topsis_rank_states completes without
raising — the entity list is non-empty, entities carry the three hard-coded
output fields, and none of the validation conditions holds — its value is
Except.ok (), the embedding of Python's None: the function builds and sorts
the rank-augmented result list internally but no code path returns it, so
the caller never receives the list of ranking records the contract
describes. -/
theorem topsis_rank_states_returns_none (sqrt : α → α) (states : List (PyState α))
    (weightsOpt : Option (List (String × α))) (flagsOpt : Option (List (String × Bool)))
    (order : List String)
    (hne : states ≠ [])
    (hstd : ∀ s ∈ states, (dictGet "score" s.attrs).isSome
      ∧ (dictGet "cost_per_habitant" s.attrs).isSome
      ∧ (dictGet "population" s.attrs).isSome)
    (hnc : ¬((∃ c ∈ order, dictGet c (weightsOpt.getD defaultWeights) = none)
      ∨ (∃ c ∈ order, dictGet c (flagsOpt.getD defaultFlags) = none)
      ∨ (∃ s ∈ states, ∃ c ∈ order, dictGet c s.attrs = none)
      ∨ (order.map (fun c => (dictGet c (weightsOpt.getD defaultWeights)).getD 0)).sum ≤ 0)) :
    topsis_rank_states sqrt states weightsOpt flagsOpt order = Except.ok () := by
  rcases topsisCore_outcome sqrt states (weightsOpt.getD defaultWeights)
    (flagsOpt.getD defaultFlags) order hne hstd with ⟨hc, _⟩ | ⟨_, hok⟩
  · exact absurd hc hnc
  · exact hok

/-- Witness for C1: a valid one-entity input on which the call succeeds and
yields None rather than a ranking list. -/
theorem topsis_rank_states_returns_none_witness :
    topsis_rank_states idSqrt
      [⟨"A", [("score", (5 : ℚ)), ("cost_per_habitant", 2), ("population", 3)]⟩]
      (some [("score", 1)]) (some [("score", true)]) ["score"] = Except.ok () :=
  topsis_rank_states_returns_none idSqrt
    [⟨"A", [("score", (5 : ℚ)), ("cost_per_habitant", 2), ("population", 3)]⟩]
    (some [("score", 1)]) (some [("score", true)]) ["score"]
    (by simp) (by decide)
    (by
      norm_num [dictGet]
      exact ⟨by simp, by simp⟩)

end TopsisClaims4
